import Mathlib

/-!
Shallow embedding of the LaTeX structure parser, paragraph versioning store,
batch instruction processor and change extractor of `genproposal.py`
(classes `LaTeXStructureParser`, `ParagraphVersion`, `ParagraphHistory`,
`ProposalGenerator`), together with theorems settling the specification
claims about them.

Text is modelled as `List Char`.  Python regular-expression substitutions
are modelled by deterministic scanners that mirror the behaviour of the
concrete patterns used in the source (each pattern is anchored on a literal
head character, so the backtracking engine behaves deterministically on
them).  The ambient wall clock (`datetime.now()`) and Python's string
hash are modelled as explicit parameters.
-/

namespace GenProposal

/-- Python `str.strip` / `\s` whitespace class, ASCII part (the inputs in the
claims are ASCII). -/
def pyIsSpace (c : Char) : Bool :=
  c = ' ' || c = '\t' || c = '\n' || c = '\r' || c = '\x0b' || c = '\x0c'

/-- Python `\w` word-character class, ASCII part. -/
def isWordChar (c : Char) : Bool :=
  c.isAlphanum || c = '_'

/-- Python `str.strip()`: drop leading and trailing whitespace. -/
def pyStrip (s : List Char) : List Char :=
  ((s.dropWhile pyIsSpace).reverse.dropWhile pyIsSpace).reverse

/-- One pass of `re.sub`: scan left to right; `f` attempts a match at the
current position, returning the replacement text and the remainder after the
match (every pattern in the source consumes at least one character).  The
fuel argument bounds the recursion; `subAll` supplies the input length,
which suffices because each step consumes at least one character. -/
def subAllAux (f : List Char → Option (List Char × List Char)) :
    Nat → List Char → List Char
  | 0, s => s
  | _ + 1, [] => []
  | n + 1, c :: cs =>
    match f (c :: cs) with
    | some (rep, rest) => rep ++ subAllAux f n rest
    | none => c :: subAllAux f n cs

/-- Global regex substitution (`re.sub(pattern, repl, s)`) for the scanner `f`. -/
def subAll (f : List Char → Option (List Char × List Char)) (s : List Char) :
    List Char :=
  subAllAux f s.length s

/-- Scan for `pat` in `s`, returning the index of the first occurrence at or
after the current offset `i`. -/
def strFindAux (pat : List Char) : List Char → Nat → Option Nat
  | [], i => if pat.isPrefixOf ([] : List Char) then some i else none
  | c :: rest, i =>
    if pat.isPrefixOf (c :: rest) then some i else strFindAux pat rest (i + 1)

/-- Python `s.find(pat, start)` (with `none` for `-1`); faithful for the
non-empty patterns the source searches for. -/
def strFindFrom (s pat : List Char) (start : Nat) : Option Nat :=
  (strFindAux pat (s.drop start) 0).map (· + start)

/-- Python `pat in s` substring test. -/
def hasSub (pat s : List Char) : Bool :=
  (strFindFrom s pat 0).isSome

/-- Literal token `\ignore{` of `_remove_ignore_blocks`. -/
def ignoreOpenTok : List Char := "\\ignore\x7b".toList

/-- Body scanner of the pattern `\\ignore\{([^{}]|\{[^{}]*\})*\}`, entered
just after the opening token: repeatedly consume a non-brace character or a
one-level braced group, succeeding on the closing brace and failing at end of
input or on deeper nesting, exactly as the backtracking engine does on this
pattern.  The fuel bounds the recursion structurally; every step consumes at
least one character, so the input length suffices (`ignoreBody`). -/
def ignoreBodyAux : Nat → List Char → Option (List Char)
  | 0, _ => none
  | _ + 1, [] => none
  | n + 1, c :: rest =>
    if c = '}' then some rest
    else if c = '{' then
      let inner := rest.takeWhile (fun d => d ≠ '{' && d ≠ '}')
      match rest.drop inner.length with
      | '}' :: rest2 => ignoreBodyAux n rest2
      | _ => none
    else ignoreBodyAux n rest

/-- Body scanner of one `\ignore{...}` match, returning the remainder after
the closing brace. -/
def ignoreBody (s : List Char) : Option (List Char) :=
  ignoreBodyAux s.length s

/-- Match attempt for one `\ignore{...}` block at the current position. -/
def tryIgnoreTok (s : List Char) : Option (List Char × List Char) :=
  if ignoreOpenTok.isPrefixOf s then
    (ignoreBody (s.drop ignoreOpenTok.length)).map (fun r => (([] : List Char), r))
  else none

/-- Embedding of `LaTeXStructureParser._remove_ignore_blocks`: the
`while '\ignore{' in s: s = re.sub(...)` loop, with explicit fuel; `none`
means the loop was still running when the fuel ran out (for every fuel value,
on inputs where a pass leaves the text unchanged while the guard holds). -/
def removeIgnoreBlocks : Nat → List Char → Option (List Char)
  | 0, s => if hasSub ignoreOpenTok s then none else some s
  | n + 1, s =>
    if hasSub ignoreOpenTok s then removeIgnoreBlocks n (subAll tryIgnoreTok s)
    else some s

/-- Match a brace-delimited argument `{...}` whose body (`[^}]*`, possibly
empty) runs to the first closing brace. -/
def braceArg (s : List Char) : Option (List Char × List Char) :=
  match s with
  | '{' :: rest =>
    let inner := rest.takeWhile (· ≠ '}')
    match rest.drop inner.length with
    | '}' :: tail => some (inner, tail)
    | _ => none
  | _ => none

/-- Match a brace-delimited argument `{...}` with a non-empty body (`[^}]+`). -/
def braceArg1 (s : List Char) : Option (List Char × List Char) :=
  match braceArg s with
  | some (inner, tail) => if inner.isEmpty then none else some (inner, tail)
  | _ => none

/-- Try the keywords of an alternation `\(kw1|kw2|...){...}` in order at a
position just after the backslash, as the regex engine does, returning the
brace body and the remainder. -/
def tryKwBrace : List String → List Char → Option (List Char × List Char)
  | [], _ => none
  | kw :: kws, s =>
    match (if kw.toList.isPrefixOf s then braceArg (s.drop kw.length) else none) with
    | some r => some r
    | none => tryKwBrace kws s

/-- Pattern `\\(begin|end)\{[^}]*\}` of `_clean_paragraph_text`, replaced by
the empty string. -/
def tryBeginEnd (s : List Char) : Option (List Char × List Char) :=
  match s with
  | '\\' :: rest => (tryKwBrace ["begin", "end"] rest).map (fun r => ([], r.2))
  | _ => none

/-- Pattern `\\(cite|ref|label)\{[^}]*\}` of `_clean_paragraph_text`,
replaced by the empty string. -/
def tryCiteRefLabel (s : List Char) : Option (List Char × List Char) :=
  match s with
  | '\\' :: rest => (tryKwBrace ["cite", "ref", "label"] rest).map (fun r => ([], r.2))
  | _ => none

/-- Pattern `\\(textbf|textit|emph|texttt|text|sout|uline)\{([^}]*)\}` of
`_clean_paragraph_text`, replaced by the captured argument. -/
def tryTextFmt (s : List Char) : Option (List Char × List Char) :=
  match s with
  | '\\' :: rest =>
    tryKwBrace ["textbf", "textit", "emph", "texttt", "text", "sout", "uline"] rest
  | _ => none

/-- Keyword helper for `\\(em|it|bf)\b\s*`: the keyword must be followed by a
word boundary; the trailing whitespace run is consumed. -/
def tryStyleKw : List String → List Char → Option (List Char × List Char)
  | [], _ => none
  | kw :: kws, s =>
    if kw.toList.isPrefixOf s &&
        (match s.drop kw.length with
         | [] => true
         | c :: _ => !isWordChar c) then
      some ([], (s.drop kw.length).dropWhile pyIsSpace)
    else tryStyleKw kws s

/-- Pattern `\\(em|it|bf)\b\s*` of `_clean_paragraph_text`, replaced by the
empty string. -/
def tryStyleTok (s : List Char) : Option (List Char × List Char) :=
  match s with
  | '\\' :: rest => tryStyleKw ["em", "it", "bf"] rest
  | _ => none

/-- Pattern `\\item\s+` of `_clean_paragraph_text`, replaced by the empty
string. -/
def tryItemTok (s : List Char) : Option (List Char × List Char) :=
  match s with
  | '\\' :: rest =>
    if "item".toList.isPrefixOf rest then
      match rest.drop 4 with
      | c :: tail =>
        if pyIsSpace c then some ([], tail.dropWhile pyIsSpace) else none
      | [] => none
    else none
  | _ => none

/-- Pattern `\$([^$]+)\$` of `_clean_paragraph_text`, replaced by `[\1]`. -/
def tryMath (s : List Char) : Option (List Char × List Char) :=
  match s with
  | '$' :: rest =>
    let inner := rest.takeWhile (· ≠ '$')
    if inner.isEmpty then none
    else
      match rest.drop inner.length with
      | '$' :: tail => some ('[' :: (inner ++ [']']), tail)
      | _ => none
  | _ => none

/-- Pattern `\s+` of `_clean_paragraph_text`, replaced by a single space. -/
def tryWsRun (s : List Char) : Option (List Char × List Char) :=
  match s with
  | c :: _ =>
    if pyIsSpace c then some ([' '], s.dropWhile pyIsSpace) else none
  | [] => none

/-- Embedding of `LaTeXStructureParser._clean_paragraph_text`: the seven
`re.sub` passes in source order, followed by `strip()`. -/
def cleanParagraphText (t : List Char) : List Char :=
  let t1 := subAll tryBeginEnd t
  let t2 := subAll tryCiteRefLabel t1
  let t3 := subAll tryTextFmt t2
  let t4 := subAll tryStyleTok t3
  let t5 := subAll tryItemTok t4
  let t6 := subAll tryMath t5
  pyStrip (subAll tryWsRun t6)

/-- Marker level: produced by the `\section` or the `\subsection` pattern. -/
inductive MKind where
  | sec
  | sub
deriving DecidableEq, Repr

/-- One section/subsection declaration found by the scanner: offset in the
(ignore-stripped, preamble-stripped) text, title, and level. -/
structure Marker where
  pos : Nat
  title : List Char
  kind : MKind
deriving DecidableEq, Repr

/-- Match `kw\*?\{([^}]+)\}` at the current position (`kw` includes the
backslash), returning the title and the remainder after the match. -/
def tryMarkerAt (kw : List Char) (s : List Char) : Option (List Char × List Char) :=
  if kw.isPrefixOf s then
    match s.drop kw.length with
    | '*' :: r => braceArg1 r
    | r => braceArg1 r
  else none

/-- Fuelled `re.finditer` over one marker pattern: record `(offset, title)`
for every non-overlapping match, scanning left to right. -/
def scanCmdAux (kw : List Char) : Nat → List Char → Nat → List (Nat × List Char)
  | 0, _, _ => []
  | n + 1, s, i =>
    match s with
    | [] => []
    | _ :: rest =>
      match tryMarkerAt kw s with
      | some (title, rest') =>
        (i, title) :: scanCmdAux kw n rest' (i + (s.length - rest'.length))
      | none => scanCmdAux kw n rest (i + 1)

/-- All matches of `kw\*?\{([^}]+)\}` in `s` with their offsets. -/
def scanCmd (kw : List Char) (s : List Char) : List (Nat × List Char) :=
  scanCmdAux kw s.length s 0

/-- Merge two offset-sorted marker lists into one, ascending by offset
(`sections_map.sort(key=lambda x: x[0])` on the concatenation; the sort is
stable and the per-pattern scans already ascend).  The fuel bounds the
recursion structurally; the sum of the lengths suffices. -/
def mergeMarkersAux : Nat → List Marker → List Marker → List Marker
  | 0, xs, ys => xs ++ ys
  | _ + 1, [], ys => ys
  | _ + 1, x :: xs, [] => x :: xs
  | n + 1, x :: xs, y :: ys =>
    if x.pos ≤ y.pos then x :: mergeMarkersAux n xs (y :: ys)
    else y :: mergeMarkersAux n (x :: xs) ys

/-- Merge of the section and subsection marker lists. -/
def mergeMarkers (xs ys : List Marker) : List Marker :=
  mergeMarkersAux (xs.length + ys.length) xs ys

/-- Embedding of the `sections_map` construction in `parse_paragraphs`:
scan for `\section*?{...}` and `\subsection*?{...}` and sort by offset. -/
def markersOf (content : List Char) : List Marker :=
  let secs := (scanCmd "\\section".toList content).map
    (fun p => ({ pos := p.1, title := p.2, kind := MKind.sec } : Marker))
  let subs := (scanCmd "\\subsection".toList content).map
    (fun p => ({ pos := p.1, title := p.2, kind := MKind.sub } : Marker))
  mergeMarkers secs subs

/-- Embedding of `re.split(r'\n\n+', content)`: split on maximal runs of two
or more newlines; the fuel bounds the recursion structurally (every step
consumes at least one character, so the input length suffices). -/
def splitBlocksAux : Nat → List Char → List Char → List (List Char)
  | 0, acc, _ => [acc.reverse]
  | _ + 1, acc, [] => [acc.reverse]
  | n + 1, acc, '\n' :: '\n' :: rest =>
    acc.reverse :: splitBlocksAux n [] (rest.dropWhile (· = '\n'))
  | n + 1, acc, c :: rest => splitBlocksAux n (c :: acc) rest

/-- Raw paragraph candidates of `parse_paragraphs`. -/
def splitBlocks (s : List Char) : List (List Char) :=
  splitBlocksAux s.length [] s

/-- Python `content.replace('\r\n', '\n')`. -/
def normCRLF : List Char → List Char
  | [] => []
  | '\r' :: '\n' :: rest => '\n' :: normCRLF rest
  | c :: rest => c :: normCRLF rest

/-- Literal `\begin{document}`. -/
def beginDocTok : List Char := "\\begin\x7bdocument\x7d".toList

/-- Literal `\end{document}`. -/
def endDocTok : List Char := "\\end\x7bdocument\x7d".toList

/-- Remove the preamble: everything up to and including the first
`\begin{document}` (`re.search` + slice in the source). -/
def stripPreamble (s : List Char) : List Char :=
  match strFindFrom s beginDocTok 0 with
  | some i => s.drop (i + beginDocTok.length)
  | none => s

/-- Remove the first `\end{document}` and everything after it
(`re.sub(r'\\end\{document\}.*', '', content, flags=re.DOTALL)`). -/
def stripEndDoc (s : List Char) : List Char :=
  match strFindFrom s endDocTok 0 with
  | some i => s.take i
  | none => s

/-- Skip test applied to each stripped candidate: blocks starting with a
section/subsection declaration, and the fixed document-markup lines. -/
def isStructureBlock (para : List Char) : Bool :=
  "\\section".toList.isPrefixOf para ||
  "\\subsection".toList.isPrefixOf para ||
  para = "\\maketitle".toList ||
  para = "\\tableofcontents".toList ||
  para = beginDocTok ||
  para = endDocTok

/-- Search `re.search(r'\\item\b', para)`: an `\item` token followed by a
word boundary somewhere in the candidate. -/
def hasItemTok : List Char → Bool
  | [] => false
  | c :: rest =>
    (("\\item".toList.isPrefixOf (c :: rest)) &&
      (match (c :: rest).drop 5 with
       | [] => true
       | d :: _ => !isWordChar d)) ||
    hasItemTok rest

/-- Output record of `parse_paragraphs`. -/
structure Paragraph where
  index : Nat
  sectionName : String
  subsectionName : String
  paragraph : String
  is_in_environment : Bool
deriving DecidableEq, Repr

/-- Effect of one marker on the carried `(section, subsection)` state: a
`\section` sets the section and resets the subsection, a `\subsection` sets
the subsection. -/
def markerStep (st : List Char × List Char) (m : Marker) : List Char × List Char :=
  match m.kind with
  | MKind.sec => (m.title, [])
  | MKind.sub => (st.1, m.title)

/-- Fold step applying all markers at offsets `≤ paraPos` (the scan with
`break` in the source) to the carried `(section, subsection)` state. -/
def applyMarkers (ms : List Marker) (paraPos : Nat) (st : List Char × List Char) :
    List Char × List Char :=
  (ms.takeWhile (fun m => m.pos ≤ paraPos)).foldl markerStep st

/-- Attribution determined by the located offset alone: the marker-prefix
fold started from the empty state. -/
def attributionAt (ms : List Marker) (pos : Nat) : List Char × List Char :=
  applyMarkers ms pos ([], [])

/-- Loop state of `parse_paragraphs`: accumulated records (paired with the
located offset `para_pos`, which the source keeps in a local variable),
current section/subsection titles, and the search pointer `section_pos`. -/
structure PState where
  acc : List (Paragraph × Nat)
  curSec : List Char
  curSub : List Char
  secPos : Nat

/-- Located offset of a candidate: `content.find(para, section_pos)` with
fallback to `section_pos` when the search fails (`find` returning `-1`). -/
def blockParaPos (content : List Char) (st : PState) (para : List Char) : Nat :=
  (strFindFrom content para st.secPos).getD st.secPos

/-- Body of the `for idx, raw_para in enumerate(raw_paras)` loop of
`parse_paragraphs`, for one raw candidate. -/
def stepBlock (ms : List Marker) (content : List Char) (st : PState)
    (blk : List Char) : PState :=
  let para := pyStrip blk
  if para.isEmpty then st
  else if isStructureBlock para then st
  else
    let paraPos := blockParaPos content st para
    let secPos' := paraPos + para.length
    let cssb := applyMarkers ms paraPos (st.curSec, st.curSub)
    let cleaned := cleanParagraphText para
    if cleaned.isEmpty then
      { st with curSec := cssb.1, curSub := cssb.2, secPos := secPos' }
    else
      { acc := st.acc ++
          [({ index := st.acc.length,
              sectionName := String.mk cssb.1,
              subsectionName := String.mk cssb.2,
              paragraph := String.mk cleaned,
              is_in_environment := hasItemTok para }, paraPos)],
        curSec := cssb.1, curSub := cssb.2, secPos := secPos' }

/-- Instrumented body of `parse_paragraphs` after ignore-block removal:
preamble strip, `\end{document}` strip, newline normalisation, marker scan,
blank-line split and the attribution fold; each produced record is paired
with its located offset `para_pos`. -/
def parseBodyAux (content0 : List Char) : List (Paragraph × Nat) :=
  let content := normCRLF (stripEndDoc (stripPreamble content0))
  let ms := markersOf content
  let blocks := splitBlocks content
  (blocks.foldl (stepBlock ms content) ⟨[], [], [], 0⟩).acc

/-- Post-ignore-removal part of `parse_paragraphs`. -/
def parseBody (content0 : List Char) : List Paragraph :=
  (parseBodyAux content0).map Prod.fst

/-- Embedding of `LaTeXStructureParser.parse_paragraphs`; the fuel bounds
the ignore-removal loop, and `none` reports that this loop was still running
(any fuel value at least the number of `\ignore{` blocks is enough on inputs
where the loop terminates; `0` is enough when the token does not occur). -/
def parseParagraphs (fuel : Nat) (latexContent : String) : Option (List Paragraph) :=
  (removeIgnoreBlocks fuel latexContent.toList).map parseBody

/-- Embedding of `ParagraphVersion`: `timestamp` is the `datetime.now()`
reading at construction time and `version_id = hash((content, timestamp)) % 10000`;
Python's string-pair hash is modelled by the explicit parameter `hashPair`
and the clock by the explicit parameter `now` (see `mkVersion`). -/
structure ParagraphVersion where
  content : String
  section_title : String
  timestamp : String
  version_id : Int
deriving DecidableEq, Repr

/-- Embedding of `ParagraphVersion.__init__`. -/
def mkVersion (hashPair : String → String → Int) (now : String)
    (content : String) (section_title : String) : ParagraphVersion :=
  { content := content
    section_title := section_title
    timestamp := now
    version_id := (hashPair content now).emod 10000 }

/-- Shape of `ParagraphVersion.to_dict()` and of one persisted version
object. -/
structure VersionDict where
  version_id : Int
  sectionName : String
  content : String
  timestamp : String
deriving DecidableEq, Repr

/-- Embedding of `ParagraphVersion.to_dict`. -/
def toDict (v : ParagraphVersion) : VersionDict :=
  { version_id := v.version_id
    sectionName := v.section_title
    content := v.content
    timestamp := v.timestamp }

/-- Insertion-ordered dictionary, as Python `dict`: a key list without
duplicates in practice; lookup finds the first entry, assignment overwrites
in place or appends a fresh key at the end. -/
def dictGet? {α : Type} : List (String × α) → String → Option α
  | [], _ => none
  | (k, v) :: rest, key => if k = key then some v else dictGet? rest key

/-- Python `d[key] = value` on an insertion-ordered dictionary. -/
def dictSet {α : Type} : List (String × α) → String → α → List (String × α)
  | [], key, value => [(key, value)]
  | (k, v) :: rest, key, value =>
    if k = key then (key, value) :: rest else (k, v) :: dictSet rest key value

/-- Embedding of `ParagraphHistory.history`: insertion-ordered mapping from
section title to the ordered version list. -/
abbrev History : Type := List (String × List ParagraphVersion)

/-- Embedding of `ParagraphHistory.add_version`. -/
def addVersion (hashPair : String → String → Int) (now : String) (h : History)
    (section_title content : String) : History :=
  dictSet h section_title
    ((dictGet? h section_title).getD [] ++ [mkVersion hashPair now content section_title])

/-- Embedding of `ParagraphHistory.get_versions`. -/
def getVersions (h : History) (section_title : String) : List VersionDict :=
  ((dictGet? h section_title).getD []).map toDict

/-- Embedding of the representation written by
`ParagraphHistory.save_to_file` (the JSON value, keys in insertion order). -/
def persist (h : History) : List (String × List VersionDict) :=
  h.map (fun p => (p.1, p.2.map toDict))

/-- Embedding of `ParagraphHistory.load_from_file` applied to an in-memory
history and an already-parsed representation: for each stored label,
`self.history[section] = [ParagraphVersion(v["content"], section) for v in versions]`.
The clock reading at load time is the parameter `now`. -/
def loadHistory (hashPair : String → String → Int) (now : String) (h : History)
    (data : List (String × List VersionDict)) : History :=
  data.foldl
    (fun acc p => dictSet acc p.1 (p.2.map (fun v => mkVersion hashPair now v.content p.1)))
    h

/-- One change record emitted by `ProposalGenerator.extract_changes`. -/
structure ChangeRecord where
  index : Int
  sectionName : String
  subsectionName : String
  original : String
  edited : String
  change_type : String
deriving DecidableEq, Repr

/-- Aggregate result of `ProposalGenerator.extract_changes`; the float
`change_percentage` is modelled as a rational. -/
structure ChangesSummary where
  total_paragraphs : Nat
  changed_paragraphs : Nat
  change_percentage : ℚ
  changes : List ChangeRecord
deriving DecidableEq, Repr

/-- One paragraph dictionary as consumed by `extract_changes`: the original
side reads `index`, `section`, `subsection` and `paragraph`; the edited side
reads only the optional `final` key. -/
structure CItem where
  index : Int
  sectionName : String
  subsectionName : String
  paragraph : String
  final : Option String
deriving DecidableEq, Repr

/-- View of a parsed `Paragraph` as an `extract_changes` input dictionary
(parser outputs carry no `final` key). -/
def Paragraph.toCItem (p : Paragraph) : CItem :=
  { index := (p.index : Int)
    sectionName := p.sectionName
    subsectionName := p.subsectionName
    paragraph := p.paragraph
    final := none }

/-- Embedding of `ProposalGenerator.extract_changes`: positional pairing by
`zip`, a change counted when the original text differs from
`edited.get('final', orig['paragraph'])`, and
`change_percentage = changed / total * 100` guarded by the emptiness test. -/
def extractChanges (originalParagraphs : List CItem) (editedParagraphs : List CItem) :
    ChangesSummary :=
  let pairs := originalParagraphs.zip editedParagraphs
  let changes := pairs.filterMap (fun p =>
    if p.1.paragraph ≠ (p.2.final.getD p.1.paragraph) then
      some ({ index := p.1.index
              sectionName := p.1.sectionName
              subsectionName := p.1.subsectionName
              original := p.1.paragraph
              edited := p.2.final.getD p.1.paragraph
              change_type :=
                match p.2.final with
                | some s => if s = "" then "manual_edit" else "llm_edit"
                | none => "manual_edit" } : ChangeRecord)
    else none)
  { total_paragraphs := originalParagraphs.length
    changed_paragraphs := changes.length
    change_percentage :=
      if originalParagraphs.isEmpty then 0
      else ((changes.length : ℚ) / (originalParagraphs.length : ℚ)) * 100
    changes := changes }

/-- Python truthiness-based `a or b` for an optional string on the left:
`None` and `""` fall through to the right operand. -/
def pyOrOpt (a : Option String) (b : Option String) : Option String :=
  match a with
  | some s => if s = "" then b else some s
  | none => b

/-- Python `a or b` with a string right operand. -/
def pyOrStr (a : Option String) (b : String) : String :=
  match a with
  | some s => if s = "" then b else s
  | none => b

/-- One paragraph object of the batch-instruction JSON input or output
(`process_json_instructions`): every key is optional, as `item.get` treats
them. -/
structure JItem where
  index : Option Int
  sectionName : Option String
  paragraph : Option String
  original : Option String
  instruction : Option String
  hint : Option String
  final : Option String
  error : Option String
deriving DecidableEq, Repr

/-- Collaborator parameters of the batch processor: the external edit call
(`dspy.Predict(EditParagraph)`, fallible), Python's string hash, and the
wall clock, all passed explicitly. -/
structure Collab where
  edit : String → String → Except String String
  hashStr : String → Int
  hashPair : String → String → Int
  now : String

/-- Instruction actually sent to the collaborator: the user hint, when
truthy, is appended under a `User hints/context:` banner. -/
def fullInstr (instruction userHint : String) : String :=
  if userHint = "" then instruction
  else instruction ++ "\n\nUser hints/context: " ++ userHint

/-- Embedding of `ProposalGenerator.edit_paragraph_via_llm`: combine the
instruction with the user hint, call the collaborator, and on success record
the new version under the section title (or a synthetic
`Paragraph_<hash % 10000>` label) before returning the edited text; a
collaborator failure propagates. -/
def editParagraphViaLLM (cb : Collab) (h : History)
    (paragraphText instruction section_title userHint : String) :
    Except String (String × History) :=
  match cb.edit paragraphText (fullInstr instruction userHint) with
  | Except.ok edited =>
    let key :=
      if section_title = "" then
        "Paragraph_" ++ toString ((cb.hashStr paragraphText).emod 10000)
      else section_title
    Except.ok (edited, addVersion cb.hashPair cb.now h key edited)
  | Except.error e => Except.error e

/-- Per-item step of the `for item in data` loop of
`process_json_instructions`, returning the written-back result object and
the history update; the original text is
`item.get('paragraph') or item.get('original') or ''`, the effective
instruction is `item.get('instruction') or item.get('hint') or global_hint`,
and `final_text` starts from `item.get('final', orig)`.  On a collaborator
failure the item keeps that `final_text` and gains an `error` annotation
instead of aborting. -/
def processItem (cb : Collab) (applyChanges : Bool) (globalHint : Option String)
    (h : History) (item : JItem) : JItem × History :=
  let orig := pyOrStr item.paragraph (pyOrStr item.original "")
  let instr := pyOrOpt item.instruction (pyOrOpt item.hint globalHint)
  let finalText := item.final.getD orig
  match instr with
  | some ins =>
    if applyChanges && ins ≠ "" then
      match editParagraphViaLLM cb h orig ins (item.sectionName.getD "")
          (pyOrStr item.hint (pyOrStr globalHint "")) with
      | Except.ok (edited, h') => ({ item with final := some edited }, h')
      | Except.error e =>
        ({ item with final := some finalText, error := some e }, h)
    else ({ item with final := some finalText }, h)
  | none => ({ item with final := some finalText }, h)

/-- Embedding of the result-building loop of
`ProposalGenerator.process_json_instructions` (`apply_changes` honoured,
diff extraction and file writing at the boundary): one result object per
input item, the history threaded through the external edit calls. -/
def processJsonItems (cb : Collab) (applyChanges : Bool)
    (globalHint : Option String) (h : History) (data : List JItem) :
    List JItem × History :=
  data.foldl
    (fun st item =>
      let r := processItem cb applyChanges globalHint st.2 item
      (st.1 ++ [r.1], r.2))
    ([], h)

/-- Scenario document of the specification: a section line directly followed
by its text, a blank line, a subsection line with its text, a blank line,
and a second section line with its text. -/
def scenarioDoc : String :=
  "\\section\x7bIntro\x7d\nHello world.\n\n\\subsection\x7bDetails\x7d\nMore text.\n\n\\section\x7bNext\x7d\nFinal."

/-- Input with an `\ignore{` token that has no matching closing brace. -/
def unterminatedIgnore : List Char := "\\ignore\x7babc".toList

/-- Document in which the text `X` of the last paragraph also occurs inside
the skipped structural block `\section{A}\nX`: the last paragraph begins at
offset 31, after the `\section{B}` marker at offset 18. -/
def dupDoc : List Char := "X\n\n\\section\x7bA\x7d\nX\n\n\\section\x7bB\x7d\n\nX".toList

/-- Hash parameter fixing both Python hashes to zero, for concrete
evaluations. -/
def hashZeroP : String → String → Int := fun _ _ => 0

/-- Collaborator whose edit call always fails, for concrete evaluations. -/
def cbBoom : Collab :=
  { edit := fun _ _ => Except.error "boom"
    hashStr := fun _ => 0
    hashPair := hashZeroP
    now := "t" }

/-- Batch item carrying a paragraph text, a pre-supplied `final` text and an
instruction. -/
def itemAB : JItem :=
  { index := some 0
    sectionName := none
    paragraph := some "A"
    original := none
    instruction := some "i"
    hint := none
    final := some "B"
    error := none }

/-- Original-side paragraph dictionary for the mismatched-length evaluation. -/
def cItemA : CItem :=
  { index := 0
    sectionName := "S"
    subsectionName := ""
    paragraph := "A"
    final := none }

/-- History holding one version under label `A`. -/
def histA : History := [("A", [mkVersion hashZeroP "t0" "x" "A"])]

/-- Persisted representation holding only label `B`. -/
def dataB : List (String × List VersionDict) :=
  [("B", [{ version_id := 7, sectionName := "B", content := "y", timestamp := "t1" }])]

/-- Persisted representation with the same label and content sequence as
`dataB` but different stored `version_id`, `section` and `timestamp`
fields. -/
def dataB' : List (String × List VersionDict) :=
  [("B", [{ version_id := 99, sectionName := "Z", content := "y", timestamp := "zzz" }])]

/-- Lookup after an assignment: the assigned key maps to the new value,
every other key is untouched. -/
theorem dictGet_dictSet {α : Type} (m : List (String × α)) (k k' : String) (v : α) :
    dictGet? (dictSet m k v) k' = if k' = k then some v else dictGet? m k' := by
  induction m with
  | nil =>
    by_cases h : k' = k
    · simp [dictSet, dictGet?, h]
    · simp [dictSet, dictGet?, h, Ne.symm h]
  | cons p rest ih =>
    obtain ⟨k0, v0⟩ := p
    by_cases h : k0 = k
    · by_cases h2 : k' = k
      · simp [dictSet, dictGet?, h, h2]
      · simp [dictSet, dictGet?, h, h2, Ne.symm h2]
    · by_cases h2 : k0 = k'
      · have hne : ¬ k' = k := fun hk => h (h2.trans hk)
        simp [dictSet, dictGet?, h, h2, hne]
      · simp [dictSet, dictGet?, h, h2, ih]

/-- Loading never touches a label that is absent from the representation. -/
theorem load_lookup_of_not_mem (hp : String → String → Int) (now : String) :
    ∀ (data : List (String × List VersionDict)) (h : History) (k : String),
      k ∉ data.map Prod.fst →
      dictGet? (loadHistory hp now h data) k = dictGet? h k := by
  intro data
  induction data with
  | nil => intro h k _; rfl
  | cons p rest ih =>
    intro h k hk
    simp only [List.map_cons, List.mem_cons, not_or] at hk
    show dictGet? (loadHistory hp now (dictSet h p.1 _) rest) k = dictGet? h k
    rw [ih _ k hk.2, dictGet_dictSet]
    simp [hk.1]

/-- Loading rewrites every label present in the representation with the
versions rebuilt from the stored contents (representations with unique
labels, as a parsed JSON object always has). -/
theorem load_lookup_of_mem (hp : String → String → Int) (now : String) :
    ∀ (data : List (String × List VersionDict)) (h : History) (k : String)
      (vs : List VersionDict),
      (data.map Prod.fst).Nodup → (k, vs) ∈ data →
      dictGet? (loadHistory hp now h data) k
        = some (vs.map fun v => mkVersion hp now v.content k) := by
  intro data
  induction data with
  | nil => intro h k vs _ hmem; cases hmem
  | cons p rest ih =>
    intro h k vs hnd hmem
    simp only [List.map_cons, List.nodup_cons] at hnd
    rcases List.mem_cons.mp hmem with heq | htl
    · subst heq
      show dictGet? (loadHistory hp now (dictSet h k _) rest) k = _
      rw [load_lookup_of_not_mem hp now rest _ k hnd.1, dictGet_dictSet]
      simp
    · show dictGet? (loadHistory hp now (dictSet h p.1 _) rest) k = _
      exact ih _ k vs hnd.2 htl

/-- Lookup misses exactly the keys that are absent. -/
theorem dictGet_eq_none_iff {α : Type} (m : List (String × α)) (k : String) :
    dictGet? m k = none ↔ k ∉ m.map Prod.fst := by
  induction m with
  | nil => simp [dictGet?]
  | cons p rest ih =>
    obtain ⟨k0, v0⟩ := p
    by_cases h : k0 = k
    · simp [dictGet?, h]
    · simp [dictGet?, h, ih, Ne.symm h]

/-- A successful lookup returns a stored entry. -/
theorem mem_of_dictGet {α : Type} (m : List (String × α)) (k : String) (v : α) :
    dictGet? m k = some v → (k, v) ∈ m := by
  induction m with
  | nil => intro h; cases h
  | cons p rest ih =>
    obtain ⟨k0, v0⟩ := p
    by_cases h : k0 = k
    · intro hv
      rw [dictGet?, if_pos h] at hv
      cases hv
      subst h
      exact List.mem_cons_self _ _
    · intro hv
      rw [dictGet?, if_neg h] at hv
      exact List.mem_cons_of_mem _ (ih hv)

/-- Persisting preserves the key sequence. -/
theorem persist_keys (h : History) : (persist h).map Prod.fst = h.map Prod.fst := by
  simp [persist]

/-- Claim C3, amended: loading a persisted representation overwrites, label
by label, exactly the labels present in the representation (each such label
maps afterwards to the versions rebuilt from the stored contents), while a
label absent from the representation keeps its previous versions — a
per-label overwrite, not a full replacement of the in-memory state. -/
theorem c3_amended_load_overwrites_per_label :
    ∀ (hp : String → String → Int) (now : String) (h : History)
      (data : List (String × List VersionDict)) (k : String),
      (k ∉ data.map Prod.fst →
        dictGet? (loadHistory hp now h data) k = dictGet? h k) ∧
      (∀ vs, (data.map Prod.fst).Nodup → (k, vs) ∈ data →
        dictGet? (loadHistory hp now h data) k
          = some (vs.map fun v => mkVersion hp now v.content k)) := by
  intro hp now h data k
  exact ⟨load_lookup_of_not_mem hp now data h k,
    fun vs hnd hmem => load_lookup_of_mem hp now data h k vs hnd hmem⟩

/-- Witness instantiating the amended C3 statement: the stale label `A`
survives loading `dataB`, and label `B` is rebuilt from the stored
contents. -/
theorem c3_amended_witness :
    dictGet? (loadHistory hashZeroP "t2" histA dataB) "A" = dictGet? histA "A" ∧
    dictGet? (loadHistory hashZeroP "t2" histA dataB) "B"
      = some ([({ version_id := 7, sectionName := "B", content := "y",
                  timestamp := "t1" } : VersionDict)].map
          fun v => mkVersion hashZeroP "t2" v.content "B") :=
  ⟨(c3_amended_load_overwrites_per_label hashZeroP "t2" histA dataB "A").1 (by decide),
   (c3_amended_load_overwrites_per_label hashZeroP "t2" histA dataB "B").2
     [{ version_id := 7, sectionName := "B", content := "y", timestamp := "t1" }]
     (by decide) (by decide)⟩

/-- Claim C4, amended: `extract_changes` raises no mismatched-length error;
it pairs the sequences positionally only up to the shorter one (`zip`
truncation), silently ignoring the excess, and reports the original
sequence's length as `total_paragraphs`. -/
theorem c4_amended_zip_truncates :
    ∀ os es : List CItem,
      (extractChanges os es).total_paragraphs = os.length ∧
      (extractChanges os es).changed_paragraphs = (extractChanges os es).changes.length ∧
      (extractChanges os es).changes.length ≤ min os.length es.length := by
  intro os es
  refine ⟨rfl, rfl, ?_⟩
  calc (extractChanges os es).changes.length
      ≤ (os.zip es).length := List.length_filterMap_le _ _
    _ = min os.length es.length := List.length_zip ..

/-- Claim C8: persisting a history and loading the persisted representation
leaves, for every section label, the ordered sequence of version content
strings returned by `get_versions` unchanged (histories have unique labels,
as every history built through `add_version` does; the rebuilt versions get
fresh timestamps and identifiers, but the contents and their order round
trip). -/
theorem c8_roundtrip_preserves_contents :
    ∀ (hp' : String → String → Int) (now : String) (h : History) (lbl : String),
      (h.map Prod.fst).Nodup →
      (getVersions (loadHistory hp' now h (persist h)) lbl).map VersionDict.content
        = (getVersions h lbl).map VersionDict.content := by
  intro hp' now h lbl hnd
  by_cases hmem : lbl ∈ h.map Prod.fst
  · cases hget : dictGet? h lbl with
    | none => exact absurd ((dictGet_eq_none_iff h lbl).mp hget) (by simpa using hmem)
    | some vs =>
      have hmem2 : (lbl, vs.map toDict) ∈ persist h := by
        have := mem_of_dictGet h lbl vs hget
        exact List.mem_map.mpr ⟨(lbl, vs), this, rfl⟩
      have hload := load_lookup_of_mem hp' now (persist h) h lbl (vs.map toDict)
        (by rw [persist_keys]; exact hnd) hmem2
      simp only [getVersions, hload, hget, Option.getD_some, List.map_map]
      rfl
  · have hnoneL := (dictGet_eq_none_iff h lbl).mpr hmem
    have hnone2 := load_lookup_of_not_mem hp' now (persist h) h lbl
      (by rw [persist_keys]; exact hmem)
    simp [getVersions, hnone2, hnoneL]

/-- Witness instantiating the C8 round trip on the one-label history
`histA`. -/
theorem c8_roundtrip_witness :
    (getVersions (loadHistory hashZeroP "t9" histA (persist histA)) "A").map VersionDict.content
      = (getVersions histA "A").map VersionDict.content :=
  c8_roundtrip_preserves_contents hashZeroP "t9" histA "A" (by decide)

/-- Claim C10: loading rebuilds every stored version from its content field
alone — each rebuilt version carries the load-time timestamp and an
identifier recomputed from the content and that timestamp — and the result
of loading is entirely insensitive to the stored `version_id`, `section` and
`timestamp` fields: two representations with the same label-to-ordered-content
structure load identically. -/
theorem c10_load_rebuilds_from_content_only :
    ∀ (hp : String → String → Int) (now : String) (h : History)
      (data data' : List (String × List VersionDict)) (k : String)
      (vs : List VersionDict),
      ((data.map Prod.fst).Nodup → (k, vs) ∈ data →
        dictGet? (loadHistory hp now h data) k
          = some (vs.map fun v => mkVersion hp now v.content k) ∧
        ∀ v' ∈ vs.map (fun v => mkVersion hp now v.content k),
          v'.timestamp = now ∧ v'.version_id = (hp v'.content now).emod 10000) ∧
      (data.map (fun p => (p.1, p.2.map VersionDict.content))
          = data'.map (fun p => (p.1, p.2.map VersionDict.content)) →
        loadHistory hp now h data = loadHistory hp now h data') := by
  intro hp now h data data' k vs
  constructor
  · intro hnd hmem
    refine ⟨load_lookup_of_mem hp now data h k vs hnd hmem, ?_⟩
    intro v' hv'
    rcases List.mem_map.mp hv' with ⟨v, _, rfl⟩
    exact ⟨rfl, rfl⟩
  · intro hproj
    induction data generalizing data' h with
    | nil =>
      cases data' with
      | nil => rfl
      | cons q rest' => simp at hproj
    | cons p rest ih =>
      cases data' with
      | nil => simp at hproj
      | cons q rest' =>
        simp only [List.map_cons, List.cons.injEq, Prod.mk.injEq] at hproj
        obtain ⟨⟨hk1, hc1⟩, hrest⟩ := hproj
        show loadHistory hp now (dictSet h p.1 _) rest
            = loadHistory hp now (dictSet h q.1 _) rest'
        have hvals : p.2.map (fun v => mkVersion hp now v.content p.1)
            = q.2.map (fun v => mkVersion hp now v.content q.1) := by
          have h1 : p.2.map (fun v => mkVersion hp now v.content p.1)
              = (p.2.map VersionDict.content).map (fun c => mkVersion hp now c p.1) := by
            rw [List.map_map]; rfl
          have h2 : q.2.map (fun v => mkVersion hp now v.content q.1)
              = (q.2.map VersionDict.content).map (fun c => mkVersion hp now c q.1) := by
            rw [List.map_map]; rfl
          rw [h1, h2, hc1, hk1]
        rw [hvals, hk1]
        exact ih (dictSet h q.1 _) rest' hrest

/-- Witness instantiating C10: loading `dataB` into the empty history
rebuilds label `B` with a fresh timestamp and identifier, and loading the
field-perturbed `dataB'` gives the identical result. -/
theorem c10_witness :
    dictGet? (loadHistory hashZeroP "t2" [] dataB) "B"
      = some ([({ version_id := 7, sectionName := "B", content := "y",
                  timestamp := "t1" } : VersionDict)].map
          fun v => mkVersion hashZeroP "t2" v.content "B") ∧
    loadHistory hashZeroP "t2" [] dataB = loadHistory hashZeroP "t2" [] dataB' :=
  ⟨((c10_load_rebuilds_from_content_only hashZeroP "t2" [] dataB dataB' "B"
      [{ version_id := 7, sectionName := "B", content := "y", timestamp := "t1" }]).1
      (by decide) (by decide)).1,
   (c10_load_rebuilds_from_content_only hashZeroP "t2" [] dataB dataB' "B"
      [{ version_id := 7, sectionName := "B", content := "y", timestamp := "t1" }]).2
      (by decide)⟩

/-- Adjacency constraint of whitespace-collapsed text: no two consecutive
whitespace characters. -/
def wsSep (a b : Char) : Prop :=
  ¬(pyIsSpace a = true ∧ pyIsSpace b = true)

/-- Character constraint of whitespace-collapsed text: every whitespace
character is a plain space. -/
def wsOnly (s : List Char) : Prop :=
  ∀ c ∈ s, pyIsSpace c = true → c = ' '

/-- Whitespace-normalisation stage of `_clean_paragraph_text`: the `\s+`
substitution followed by `strip()`. -/
def wsStage (s : List Char) : List Char :=
  pyStrip (subAll tryWsRun s)

/-- Result object written back for an item does not depend on the history
state threaded through the batch: only the recorded versions do. -/
theorem processItem_fst_indep (cb : Collab) (a : Bool) (g : Option String)
    (h h' : History) (item : JItem) :
    (processItem cb a g h item).1 = (processItem cb a g h' item).1 := by
  simp only [processItem, editParagraphViaLLM]
  cases pyOrOpt item.instruction (pyOrOpt item.hint g) with
  | none => rfl
  | some ins =>
    dsimp only
    split
    · cases cb.edit (pyOrStr item.paragraph (pyOrStr item.original ""))
        (fullInstr ins (pyOrStr item.hint (pyOrStr g ""))) with
      | ok e => rfl
      | error m => rfl
    · rfl

/-- Result list of the batch fold is the pointwise image of the input
items. -/
theorem processJson_fold_fst (cb : Collab) (a : Bool) (g : Option String) :
    ∀ (data : List JItem) (h : History) (acc : List JItem),
      (data.foldl
        (fun st item =>
          let r := processItem cb a g st.2 item
          (st.1 ++ [r.1], r.2)) (acc, h)).1
        = acc ++ data.map (fun item => (processItem cb a g h item).1) := by
  intro data
  induction data with
  | nil => intro h acc; simp
  | cons d rest ih =>
    intro h acc
    rw [List.foldl_cons, ih]
    have hmap : rest.map (fun item => (processItem cb a g (processItem cb a g h d).2 item).1)
        = rest.map (fun item => (processItem cb a g h item).1) :=
      List.map_congr_left (fun item _ => processItem_fst_indep cb a g _ h item)
    rw [hmap, List.append_assoc]
    rfl

/-- Claim C5, amended: the batch always completes with exactly one result
object per input item and a populated `final` field on every result; for an
item whose external edit call fails, the recorded `final` text is the item's
pre-supplied `final` text when the item carries one and its original text
otherwise (`item.get('final', orig)`), and the failure description is
attached as the item's `error` annotation. -/
theorem c5_amended_batch_completes :
    ∀ (cb : Collab) (applyCh : Bool) (g : Option String) (h : History)
      (data : List JItem),
      (processJsonItems cb applyCh g h data).1
        = data.map (fun item => (processItem cb applyCh g h item).1) ∧
      (∀ item : JItem, ((processItem cb applyCh g h item).1).final.isSome) ∧
      (∀ (item : JItem) (ins m : String),
        pyOrOpt item.instruction (pyOrOpt item.hint g) = some ins →
        ins ≠ "" → applyCh = true →
        cb.edit (pyOrStr item.paragraph (pyOrStr item.original ""))
            (fullInstr ins (pyOrStr item.hint (pyOrStr g ""))) = Except.error m →
        (processItem cb applyCh g h item).1.final
            = some (item.final.getD (pyOrStr item.paragraph (pyOrStr item.original ""))) ∧
        (processItem cb applyCh g h item).1.error = some m) := by
  intro cb applyCh g h data
  refine ⟨?_, ?_, ?_⟩
  · show (data.foldl _ ([], h)).1 = _
    rw [processJson_fold_fst cb applyCh g data h []]
    rfl
  · intro item
    simp only [processItem, editParagraphViaLLM]
    cases pyOrOpt item.instruction (pyOrOpt item.hint g) with
    | none => rfl
    | some ins =>
      dsimp only
      split
      · cases cb.edit (pyOrStr item.paragraph (pyOrStr item.original ""))
          (fullInstr ins (pyOrStr item.hint (pyOrStr g ""))) with
        | ok e => rfl
        | error m => rfl
      · rfl
  · intro item ins m hins hne happ hedit
    simp only [processItem, editParagraphViaLLM, hins, happ, hne, hedit]
    simp [hne]

/-- Witness instantiating the amended C5 statement on an always-failing
collaborator and an item with a pre-supplied final text. -/
theorem c5_amended_witness :
    (processItem cbBoom true none [] itemAB).1.final = some "B" ∧
    (processItem cbBoom true none [] itemAB).1.error = some "boom" :=
  (c5_amended_batch_completes cbBoom true none [] [itemAB]).2.2 itemAB "i" "boom"
    rfl (by decide) rfl rfl

/-- Claim C1, evaluated at the failing input: the specification scenario
document is claimed to parse to three paragraph records (Intro/Hello world,
Intro+Details/More text, Next/Final), but the code produces no paragraphs at
all — every blank-line block of the scenario begins with a section or
subsection declaration, and the `startswith('\\section')` skip discards the
whole block together with the prose on its following line. -/
theorem c1_scenario_parses_to_no_paragraphs :
    parseParagraphs 0 scenarioDoc = some [] := by
  decide

/-- Claim C2, evaluated at the failing input: on an `\ignore{` token with no
matching closing brace the substitution pattern never matches, each pass
returns the text unchanged while the loop guard still holds, and the
`while` loop of `_remove_ignore_blocks` never terminates — for every fuel
bound the loop is still running. -/
theorem c2_unterminated_ignore_loops_forever :
    ∀ fuel : Nat, removeIgnoreBlocks fuel unterminatedIgnore = none := by
  have hguard : hasSub ignoreOpenTok unterminatedIgnore = true := by decide
  have hpass : subAll tryIgnoreTok unterminatedIgnore = unterminatedIgnore := by decide
  intro fuel
  induction fuel with
  | zero => simp [removeIgnoreBlocks, hguard]
  | succ n ih => simp [removeIgnoreBlocks, hguard, hpass, ih]

/-- Claim C3, counterexample: a history holding label `A` is loaded from a
representation holding only label `B`; the claim demands that `A` be gone
afterwards, but the code never clears prior state and `A` is still
present. -/
theorem c3_counterexample_load_keeps_absent_label :
    dictGet? (loadHistory hashZeroP "t2" histA dataB) "A" ≠ none := by
  decide

/-- Claim C4, counterexample: `extract_changes` on an original sequence of
length one and an edited sequence of length zero is claimed to fail with a
mismatched-length error, but the code has no such error path — `zip`
silently drops the unpaired element and a normal summary is returned. -/
theorem c4_counterexample_unequal_lengths_return_normally :
    extractChanges [cItemA] [] =
      { total_paragraphs := 1
        changed_paragraphs := 0
        change_percentage := 0
        changes := [] } := by
  have h1 : ([cItemA].zip ([] : List CItem)) = [] := rfl
  simp [extractChanges, h1]

/-- Claim C5, counterexample: for an item carrying a pre-supplied `final`
text `"B"` and original text `"A"`, a failing edit call leaves `final_text`
at `item.get('final', orig) = "B"`, not at the original `"A"` the claim
demands; the failure is still annotated and the batch completes. -/
theorem c5_counterexample_presupplied_final_survives_failure :
    (processJsonItems cbBoom true none [] [itemAB]).1 =
      [{ itemAB with final := some "B", error := some "boom" }] := by
  decide

/-- Claim C6, counterexample: cleaning `$$x$$` yields `$[x]$` (the inner
math pass leaves a reformed `$...$` pair), and cleaning again yields
`[[x]]`, so cleaning is not idempotent. -/
theorem c6_counterexample_cleaning_not_idempotent :
    cleanParagraphText (cleanParagraphText ("$$x$$".toList)) ≠
      cleanParagraphText ("$$x$$".toList) := by
  decide

/-- Claim C7, counterexample: in `dupDoc` the last paragraph `X` begins at
offset 31, after the `\section{B}` marker at offset 18, yet it is attributed
to the earlier section `A`: its text also occurs (offset 15) inside the
skipped structural block `\section{A}\nX`, which never advanced the search
pointer, so the forward search locates the duplicate occurrence before the
`B` marker. -/
theorem c7_counterexample_duplicate_in_skipped_block :
    parseBody dupDoc =
      [{ index := 0, sectionName := "", subsectionName := "",
         paragraph := "X", is_in_environment := false },
       { index := 1, sectionName := "A", subsectionName := "",
         paragraph := "X", is_in_environment := false }] ∧
    markersOf dupDoc =
      [{ pos := 3, title := ['A'], kind := MKind.sec },
       { pos := 18, title := ['B'], kind := MKind.sec }] ∧
    dupDoc.length = 32 ∧ dupDoc.drop 31 = ['X'] := by
  refine ⟨by decide, by decide, by decide, by decide⟩

/-- Claim C9: `extract_changes` on two identical paragraph sequences (parser
outputs, which carry no `final` key) reports zero changed paragraphs and a
zero change percentage, and on an empty original sequence reports a zero
change percentage with no division fault (the emptiness guard short-circuits
the division). -/
theorem c9_identical_and_empty_sequences :
    (∀ ps : List Paragraph,
      (extractChanges (ps.map Paragraph.toCItem) (ps.map Paragraph.toCItem)).changed_paragraphs = 0 ∧
      (extractChanges (ps.map Paragraph.toCItem) (ps.map Paragraph.toCItem)).change_percentage = 0) ∧
    ∀ es : List CItem, (extractChanges [] es).change_percentage = 0 := by
  constructor
  · intro ps
    have hchanges :
        ((ps.map Paragraph.toCItem).zip (ps.map Paragraph.toCItem)).filterMap (fun p =>
          if p.1.paragraph ≠ (p.2.final.getD p.1.paragraph) then
            some ({ index := p.1.index
                    sectionName := p.1.sectionName
                    subsectionName := p.1.subsectionName
                    original := p.1.paragraph
                    edited := p.2.final.getD p.1.paragraph
                    change_type :=
                      match p.2.final with
                      | some s => if s = "" then "manual_edit" else "llm_edit"
                      | none => "manual_edit" } : ChangeRecord)
          else none) = [] := by
      rw [List.zip_map', List.filterMap_map]
      simp [Paragraph.toCItem]
    constructor
    · simp only [extractChanges]
      rw [hchanges]
      rfl
    · simp only [extractChanges]
      rw [hchanges]
      simp
  · intro es
    rfl

/-- Running a substitution on the empty text yields the empty text for any
fuel. -/
theorem subAllAux_nil (f : List Char → Option (List Char × List Char)) :
    ∀ n : Nat, subAllAux f n [] = [] := by
  intro n
  cases n <;> rfl

/-- A substitution whose scanner matches nowhere in `s` leaves `s`
unchanged, for any fuel. -/
theorem subAllAux_id_of_none (f : List Char → Option (List Char × List Char)) :
    ∀ (n : Nat) (s : List Char),
      (∀ c cs, c ∈ s → f (c :: cs) = none) → subAllAux f n s = s := by
  intro n
  induction n with
  | zero => intro s _; rfl
  | succ n ih =>
    intro s hs
    cases s with
    | nil => rfl
    | cons c cs =>
      show (match f (c :: cs) with
        | some (rep, rest) => rep ++ subAllAux f n rest
        | none => c :: subAllAux f n cs) = c :: cs
      rw [hs c cs (List.mem_cons_self c cs)]
      rw [ih cs (fun c' cs' hc' => hs c' cs' (List.mem_cons_of_mem c hc'))]

/-- Scanner of the begin/end pass fires only on a backslash. -/
theorem tryBeginEnd_none (c : Char) (cs : List Char) (h : c ≠ '\\') :
    tryBeginEnd (c :: cs) = none := by
  unfold tryBeginEnd
  split
  · next rest heq =>
    injection heq with h1 _
    exact absurd h1 h
  · rfl

/-- Scanner of the cite/ref/label pass fires only on a backslash. -/
theorem tryCiteRefLabel_none (c : Char) (cs : List Char) (h : c ≠ '\\') :
    tryCiteRefLabel (c :: cs) = none := by
  unfold tryCiteRefLabel
  split
  · next rest heq =>
    injection heq with h1 _
    exact absurd h1 h
  · rfl

/-- Scanner of the text-formatting pass fires only on a backslash. -/
theorem tryTextFmt_none (c : Char) (cs : List Char) (h : c ≠ '\\') :
    tryTextFmt (c :: cs) = none := by
  unfold tryTextFmt
  split
  · next rest heq =>
    injection heq with h1 _
    exact absurd h1 h
  · rfl

/-- Scanner of the style-token pass fires only on a backslash. -/
theorem tryStyleTok_none (c : Char) (cs : List Char) (h : c ≠ '\\') :
    tryStyleTok (c :: cs) = none := by
  unfold tryStyleTok
  split
  · next rest heq =>
    injection heq with h1 _
    exact absurd h1 h
  · rfl

/-- Scanner of the item-marker pass fires only on a backslash. -/
theorem tryItemTok_none (c : Char) (cs : List Char) (h : c ≠ '\\') :
    tryItemTok (c :: cs) = none := by
  unfold tryItemTok
  split
  · next rest heq =>
    injection heq with h1 _
    exact absurd h1 h
  · rfl

/-- Scanner of the inline-math pass fires only on a dollar sign. -/
theorem tryMath_none (c : Char) (cs : List Char) (h : c ≠ '$') :
    tryMath (c :: cs) = none := by
  unfold tryMath
  split
  · next rest heq =>
    injection heq with h1 _
    exact absurd h1 h
  · rfl

/-- On text containing no backslash and no dollar sign, the six markup
substitutions are the identity and cleaning reduces to the whitespace
stage. -/
theorem clean_eq_wsStage (s : List Char)
    (hs : ∀ c ∈ s, c ≠ '\\' ∧ c ≠ '$') :
    cleanParagraphText s = wsStage s := by
  have h1 : subAll tryBeginEnd s = s :=
    subAllAux_id_of_none _ _ s (fun c cs hc => tryBeginEnd_none c cs (hs c hc).1)
  have h2 : subAll tryCiteRefLabel s = s :=
    subAllAux_id_of_none _ _ s (fun c cs hc => tryCiteRefLabel_none c cs (hs c hc).1)
  have h3 : subAll tryTextFmt s = s :=
    subAllAux_id_of_none _ _ s (fun c cs hc => tryTextFmt_none c cs (hs c hc).1)
  have h4 : subAll tryStyleTok s = s :=
    subAllAux_id_of_none _ _ s (fun c cs hc => tryStyleTok_none c cs (hs c hc).1)
  have h5 : subAll tryItemTok s = s :=
    subAllAux_id_of_none _ _ s (fun c cs hc => tryItemTok_none c cs (hs c hc).1)
  have h6 : subAll tryMath s = s :=
    subAllAux_id_of_none _ _ s (fun c cs hc => tryMath_none c cs (hs c hc).2)
  show pyStrip (subAll tryWsRun (subAll tryMath (subAll tryItemTok (subAll tryStyleTok
    (subAll tryTextFmt (subAll tryCiteRefLabel (subAll tryBeginEnd s))))))) = wsStage s
  rw [h1, h2, h3, h4, h5, h6]
  rfl

/-- Head of a `dropWhile` residue fails the predicate. -/
theorem dropWhile_head_not (p : Char → Bool) :
    ∀ (l : List Char) (d : Char) (ds : List Char),
      l.dropWhile p = d :: ds → p d = false := by
  intro l
  induction l with
  | nil => intro d ds h; cases h
  | cons a as ih =>
    intro d ds h
    rw [List.dropWhile_cons] at h
    by_cases ha : p a = true
    · rw [if_pos ha] at h
      exact ih d ds h
    · rw [if_neg ha] at h
      injection h with h1 _
      rw [← h1]
      simpa using ha

/-- A list whose head fails the predicate is its own `dropWhile` residue. -/
theorem dropWhile_eq_self_of_head (p : Char → Bool) (l : List Char)
    (h : ∀ d ds, l = d :: ds → p d = false) : l.dropWhile p = l := by
  cases l with
  | nil => rfl
  | cons d ds => rw [List.dropWhile_cons, if_neg (by simp [h d ds rfl])]

/-- Stripping is idempotent: the residue has no leading and no trailing
whitespace left to remove. -/
theorem pyStrip_pyStrip (u : List Char) : pyStrip (pyStrip u) = pyStrip u := by
  have hB : pyStrip u = ((u.dropWhile pyIsSpace).reverse.dropWhile pyIsSpace).reverse := rfl
  cases hBe : (u.dropWhile pyIsSpace).reverse.dropWhile pyIsSpace with
  | nil => rw [pyStrip, hB, hBe]; rfl
  | cons b B' =>
    have hAne : u.dropWhile pyIsSpace ≠ [] := by
      intro hA
      rw [hA] at hBe
      cases hBe
    have hfront : ∀ d ds, ((b :: B').reverse : List Char) = d :: ds → pyIsSpace d = false := by
      intro d ds hd
      obtain ⟨pre, hpre⟩ := List.dropWhile_suffix (l := (u.dropWhile pyIsSpace).reverse) (p := pyIsSpace)
      rw [hBe] at hpre
      have hlast : ((b :: B').reverse).head? = (u.dropWhile pyIsSpace).head? := by
        rw [List.head?_reverse, ← List.getLast?_reverse, ← hpre,
          List.getLast?_append_of_ne_nil _ (by simp : (b :: B' : List Char) ≠ [])]
      cases hA : u.dropWhile pyIsSpace with
      | nil => exact absurd hA hAne
      | cons a A' =>
        have ha := dropWhile_head_not pyIsSpace u a A' hA
        rw [hd, hA] at hlast
        simp at hlast
        rw [hlast]
        exact ha
    rw [hB, hBe]
    show ((((b :: B').reverse.dropWhile pyIsSpace).reverse).dropWhile pyIsSpace).reverse
      = (b :: B').reverse
    rw [dropWhile_eq_self_of_head pyIsSpace (b :: B').reverse hfront,
      List.reverse_reverse]
    have hb : pyIsSpace b = false :=
      dropWhile_head_not pyIsSpace (u.dropWhile pyIsSpace).reverse b B' hBe
    rw [List.dropWhile_cons, if_neg (by simp [hb])]

/-- Characters of the stripped text come from the text. -/
theorem mem_pyStrip (s : List Char) (c : Char) (h : c ∈ pyStrip s) : c ∈ s := by
  unfold pyStrip at h
  rw [List.mem_reverse] at h
  have h2 : c ∈ (s.dropWhile pyIsSpace).reverse := (List.dropWhile_sublist _).subset h
  rw [List.mem_reverse] at h2
  exact (List.dropWhile_sublist _).subset h2

/-- Stripping preserves the collapsed-whitespace adjacency constraint. -/
theorem chain'_pyStrip (s : List Char) (h : List.Chain' wsSep s) :
    List.Chain' wsSep (pyStrip s) := by
  have hflip : ∀ (l : List Char), List.Chain' wsSep l → List.Chain' wsSep l.reverse := by
    intro l hl
    rw [List.chain'_reverse]
    exact hl.imp (fun a b hab => fun hp => hab ⟨hp.2, hp.1⟩)
  exact hflip _ (((hflip _ (h.suffix (List.dropWhile_suffix _))).suffix
    (List.dropWhile_suffix _)))

/-- Whitespace collapsing yields only-plain-space, no-adjacent-whitespace
text. -/
theorem wsCollapse_ok :
    ∀ (n : Nat) (s : List Char), s.length ≤ n →
      wsOnly (subAllAux tryWsRun n s) ∧
      List.Chain' wsSep (subAllAux tryWsRun n s) := by
  intro n
  induction n with
  | zero =>
    intro s hs
    cases s with
    | nil => exact ⟨fun c hc => absurd hc (List.not_mem_nil c), List.chain'_nil⟩
    | cons c cs => simp at hs
  | succ n ih =>
    intro s hs
    cases s with
    | nil => exact ⟨fun c hc => absurd hc (List.not_mem_nil c), List.chain'_nil⟩
    | cons c cs =>
      have hcs : cs.length ≤ n := by simp at hs; omega
      by_cases hc : pyIsSpace c = true
      · have htry : tryWsRun (c :: cs) = some ([' '], cs.dropWhile pyIsSpace) := by
          show (if pyIsSpace c = true then
              some (([' '] : List Char), (c :: cs).dropWhile pyIsSpace)
            else none) = _
          rw [if_pos hc, List.dropWhile_cons, if_pos hc]
        have hrlen : (cs.dropWhile pyIsSpace).length ≤ n :=
          le_trans (List.dropWhile_sublist _).length_le hcs
        obtain ⟨ihO, ihC⟩ := ih (cs.dropWhile pyIsSpace) hrlen
        have hshape : subAllAux tryWsRun (n + 1) (c :: cs)
            = ' ' :: subAllAux tryWsRun n (cs.dropWhile pyIsSpace) := by
          show (match tryWsRun (c :: cs) with
            | some (rep, rest) => rep ++ subAllAux tryWsRun n rest
            | none => c :: subAllAux tryWsRun n cs) = _
          rw [htry]
          rfl
        rw [hshape]
        refine ⟨?_, ?_⟩
        · intro d hd hsp
          rcases List.mem_cons.mp hd with rfl | hmem
          · rfl
          · exact ihO d hmem hsp
        · rw [List.chain'_cons']
          refine ⟨?_, ihC⟩
          intro hd hhd
          cases hrest : cs.dropWhile pyIsSpace with
          | nil =>
            rw [hrest, subAllAux_nil] at hhd
            cases hhd
          | cons d0 ds =>
            have hdns := dropWhile_head_not pyIsSpace cs d0 ds hrest
            have hn1 : 1 ≤ n := by
              rw [hrest] at hrlen
              simp at hrlen
              omega
            obtain ⟨m, rfl⟩ : ∃ m, n = m + 1 := ⟨n - 1, by omega⟩
            rw [hrest] at hhd
            have hstep : subAllAux tryWsRun (m + 1) (d0 :: ds)
                = d0 :: subAllAux tryWsRun m ds := by
              show (match tryWsRun (d0 :: ds) with
                | some (rep, rest) => rep ++ subAllAux tryWsRun m rest
                | none => d0 :: subAllAux tryWsRun m ds) = _
              have : tryWsRun (d0 :: ds) = none := by
                show (if pyIsSpace d0 = true then
                    some (([' '] : List Char), (d0 :: ds).dropWhile pyIsSpace)
                  else none) = none
                rw [if_neg (by simp [hdns])]
              rw [this]
            rw [hstep] at hhd
            simp at hhd
            subst hhd
            exact fun hp => by
              have := hp.2
              rw [hdns] at this
              cases this
      · have htry : tryWsRun (c :: cs) = none := by
          show (if pyIsSpace c = true then
              some (([' '] : List Char), (c :: cs).dropWhile pyIsSpace)
            else none) = none
          rw [if_neg hc]
        have hshape : subAllAux tryWsRun (n + 1) (c :: cs)
            = c :: subAllAux tryWsRun n cs := by
          show (match tryWsRun (c :: cs) with
            | some (rep, rest) => rep ++ subAllAux tryWsRun n rest
            | none => c :: subAllAux tryWsRun n cs) = _
          rw [htry]
        obtain ⟨ihO, ihC⟩ := ih cs hcs
        rw [hshape]
        refine ⟨?_, ?_⟩
        · intro d hd hsp
          rcases List.mem_cons.mp hd with rfl | hmem
          · exact absurd hsp hc
          · exact ihO d hmem hsp
        · rw [List.chain'_cons']
          refine ⟨?_, ihC⟩
          intro hd _
          exact fun hp => hc hp.1

/-- Whitespace collapsing fixes text that is already collapsed. -/
theorem wsCollapse_id :
    ∀ (n : Nat) (s : List Char), s.length ≤ n →
      wsOnly s → List.Chain' wsSep s → subAllAux tryWsRun n s = s := by
  intro n
  induction n with
  | zero =>
    intro s hs _ _
    cases s with
    | nil => rfl
    | cons c cs => simp at hs
  | succ n ih =>
    intro s hs hO hC
    cases s with
    | nil => rfl
    | cons c cs =>
      have hcs : cs.length ≤ n := by simp at hs; omega
      have hOcs : wsOnly cs := fun d hd => hO d (List.mem_cons_of_mem _ hd)
      by_cases hc : pyIsSpace c = true
      · have hcsp : c = ' ' := hO c (List.mem_cons_self _ _) hc
        have hdrop : cs.dropWhile pyIsSpace = cs := by
          cases cs with
          | nil => rfl
          | cons d ds =>
            have hsep : wsSep c d := (List.chain'_cons.mp hC).1
            have hdns : pyIsSpace d = false := by
              by_cases hdd : pyIsSpace d = true
              · exact absurd ⟨hc, hdd⟩ hsep
              · simpa using hdd
            rw [List.dropWhile_cons, if_neg (by simp [hdns])]
        have htry : tryWsRun (c :: cs) = some ([' '], cs) := by
          show (if pyIsSpace c = true then
              some (([' '] : List Char), (c :: cs).dropWhile pyIsSpace)
            else none) = _
          rw [if_pos hc, List.dropWhile_cons, if_pos hc, hdrop]
        have hshape : subAllAux tryWsRun (n + 1) (c :: cs)
            = ' ' :: subAllAux tryWsRun n cs := by
          show (match tryWsRun (c :: cs) with
            | some (rep, rest) => rep ++ subAllAux tryWsRun n rest
            | none => c :: subAllAux tryWsRun n cs) = _
          rw [htry]
          rfl
        rw [hshape, ih cs hcs hOcs hC.tail, hcsp]
      · have htry : tryWsRun (c :: cs) = none := by
          show (if pyIsSpace c = true then
              some (([' '] : List Char), (c :: cs).dropWhile pyIsSpace)
            else none) = none
          rw [if_neg hc]
        have hshape : subAllAux tryWsRun (n + 1) (c :: cs)
            = c :: subAllAux tryWsRun n cs := by
          show (match tryWsRun (c :: cs) with
            | some (rep, rest) => rep ++ subAllAux tryWsRun n rest
            | none => c :: subAllAux tryWsRun n cs) = _
          rw [htry]
        rw [hshape, ih cs hcs hOcs hC.tail]

/-- Characters of the collapsed text come from the text, up to inserted
plain spaces. -/
theorem mem_wsCollapse :
    ∀ (n : Nat) (s : List Char) (c : Char),
      c ∈ subAllAux tryWsRun n s → c ∈ s ∨ c = ' ' := by
  intro n
  induction n with
  | zero => intro s c hc; exact Or.inl hc
  | succ n ih =>
    intro s c hc
    cases s with
    | nil => rw [subAllAux_nil] at hc; cases hc
    | cons a cs =>
      by_cases ha : pyIsSpace a = true
      · have htry : tryWsRun (a :: cs) = some ([' '], cs.dropWhile pyIsSpace) := by
          show (if pyIsSpace a = true then
              some (([' '] : List Char), (a :: cs).dropWhile pyIsSpace)
            else none) = _
          rw [if_pos ha, List.dropWhile_cons, if_pos ha]
        rw [show subAllAux tryWsRun (n + 1) (a :: cs)
            = ' ' :: subAllAux tryWsRun n (cs.dropWhile pyIsSpace) from by
          show (match tryWsRun (a :: cs) with
            | some (rep, rest) => rep ++ subAllAux tryWsRun n rest
            | none => a :: subAllAux tryWsRun n cs) = _
          rw [htry]
          rfl] at hc
        rcases List.mem_cons.mp hc with rfl | hmem
        · exact Or.inr rfl
        · rcases ih _ c hmem with hin | hsp
          · exact Or.inl (List.mem_cons_of_mem _ ((List.dropWhile_sublist _).subset hin))
          · exact Or.inr hsp
      · have htry : tryWsRun (a :: cs) = none := by
          show (if pyIsSpace a = true then
              some (([' '] : List Char), (a :: cs).dropWhile pyIsSpace)
            else none) = none
          rw [if_neg ha]
        rw [show subAllAux tryWsRun (n + 1) (a :: cs)
            = a :: subAllAux tryWsRun n cs from by
          show (match tryWsRun (a :: cs) with
            | some (rep, rest) => rep ++ subAllAux tryWsRun n rest
            | none => a :: subAllAux tryWsRun n cs) = _
          rw [htry]] at hc
        rcases List.mem_cons.mp hc with rfl | hmem
        · exact Or.inl (List.mem_cons_self _ _)
        · rcases ih cs c hmem with hin | hsp
          · exact Or.inl (List.mem_cons_of_mem _ hin)
          · exact Or.inr hsp

/-- Whitespace stage is idempotent. -/
theorem wsStage_idem (s : List Char) : wsStage (wsStage s) = wsStage s := by
  obtain ⟨hO, hC⟩ := wsCollapse_ok s.length s le_rfl
  have hOt : wsOnly (wsStage s) := fun c hc hsp =>
    hO c (mem_pyStrip _ c hc) hsp
  have hCt : List.Chain' wsSep (wsStage s) := chain'_pyStrip _ hC
  show pyStrip (subAll tryWsRun (wsStage s)) = wsStage s
  rw [show subAll tryWsRun (wsStage s) = wsStage s from
    wsCollapse_id (wsStage s).length (wsStage s) le_rfl hOt hCt]
  exact pyStrip_pyStrip _

/-- Claim C6, amended: markup cleaning is not idempotent in general
(cleaning `$$x$$` gives `$[x]$`, cleaning twice gives `[[x]]`, and nested
formatting such as `\textbf{\textit{x}}` loses one wrapper per pass); it is
idempotent on text containing no backslash and no dollar sign, where only
the whitespace-collapsing stage acts. -/
theorem c6_amended_idempotent_without_markup :
    ∀ s : List Char, (∀ c ∈ s, c ≠ '\\' ∧ c ≠ '$') →
      cleanParagraphText (cleanParagraphText s) = cleanParagraphText s := by
  intro s hs
  rw [clean_eq_wsStage s hs]
  have hsub : ∀ c ∈ wsStage s, c ≠ '\\' ∧ c ≠ '$' := by
    intro c hc
    rcases mem_wsCollapse s.length s c (mem_pyStrip _ c hc) with hin | rfl
    · exact hs c hin
    · exact ⟨by decide, by decide⟩
  rw [clean_eq_wsStage _ hsub]
  exact wsStage_idem s

/-- Witness instantiating the amended C6 statement on markup-free text with
irregular whitespace. -/
theorem c6_amended_witness :
    cleanParagraphText (cleanParagraphText ("a  b ".toList))
      = cleanParagraphText ("a  b ".toList) :=
  c6_amended_idempotent_without_markup ("a  b ".toList) (by decide)

/-- Section component of the marker fold depends only on the section
component of the start state. -/
theorem markerFold_fst_congr :
    ∀ (L : List Marker) (t t' : List Char × List Char), t.1 = t'.1 →
      (L.foldl markerStep t).1 = (L.foldl markerStep t').1 := by
  intro L
  induction L with
  | nil => intro t t' h; exact h
  | cons m rest ih =>
    intro t t' h
    rw [List.foldl_cons, List.foldl_cons]
    cases hk : m.kind with
    | sec => exact ih _ _ (by simp [markerStep, hk])
    | sub => exact ih _ _ (by simp [markerStep, hk, h])

/-- Re-folding the same marker prefix over its own result changes nothing:
the state computed from a prefix is a fixed point of that prefix.  This is
what makes the source's restart-from-the-beginning marker scan sound. -/
theorem markerFold_idem (L : List Marker) :
    ∀ s, L.foldl markerStep (L.foldl markerStep s) = L.foldl markerStep s := by
  induction L using List.reverseRecOn with
  | nil => intro s; rfl
  | append_singleton L m ih =>
    intro s
    simp only [List.foldl_append, List.foldl_cons, List.foldl_nil]
    cases hk : m.kind with
    | sec => simp [markerStep, hk]
    | sub =>
      simp only [markerStep, hk]
      have h1 : (L.foldl markerStep ((L.foldl markerStep s).1, m.title)).1
          = (L.foldl markerStep (L.foldl markerStep s)).1 :=
        markerFold_fst_congr L _ _ rfl
      rw [Prod.mk.injEq]
      exact ⟨h1.trans (congrArg Prod.fst (ih s)), rfl⟩

/-- A marker prefix for a lower cut-off is a prefix of the one for a higher
cut-off. -/
theorem takeWhile_le_mono (ms : List Marker) (p q : Nat) (hpq : p ≤ q) :
    ∃ R, ms.takeWhile (fun m => m.pos ≤ q)
      = ms.takeWhile (fun m => m.pos ≤ p) ++ R := by
  induction ms with
  | nil => exact ⟨[], rfl⟩
  | cons m rest ih =>
    by_cases hm : m.pos ≤ p
    · have hmq : m.pos ≤ q := le_trans hm hpq
      obtain ⟨R, hR⟩ := ih
      refine ⟨R, ?_⟩
      rw [List.takeWhile_cons, List.takeWhile_cons,
        if_pos (by simpa using hmq), if_pos (by simpa using hm), hR,
        List.cons_append]
    · refine ⟨(m :: rest).takeWhile (fun m => m.pos ≤ q), ?_⟩
      rw [List.takeWhile_cons (l := rest) (p := fun m => m.pos ≤ p),
        if_neg (by simpa using hm), List.nil_append]

/-- Applying the marker scan at a later cut-off to the state obtained at an
earlier cut-off gives the same result as applying it to the initial state:
attribution is a function of the latest located offset alone. -/
theorem applyMarkers_trans (ms : List Marker) (p q : Nat) (hpq : p ≤ q)
    (s : List Char × List Char) :
    applyMarkers ms q (applyMarkers ms p s) = applyMarkers ms q s := by
  obtain ⟨R, hR⟩ := takeWhile_le_mono ms p q hpq
  unfold applyMarkers
  rw [hR, List.foldl_append, List.foldl_append,
    markerFold_idem (ms.takeWhile (fun m => m.pos ≤ p)) s]

/-- Search results never precede the search start. -/
theorem strFindFrom_ge (s pat : List Char) (start i : Nat)
    (h : strFindFrom s pat start = some i) : start ≤ i := by
  unfold strFindFrom at h
  cases hfa : strFindAux pat (s.drop start) 0 with
  | none => rw [hfa] at h; cases h
  | some j =>
    rw [hfa] at h
    simp at h
    omega

/-- Case equations for the loop body. -/
theorem stepBlock_def (ms : List Marker) (content : List Char) (st : PState)
    (blk : List Char) :
    stepBlock ms content st blk =
      if (pyStrip blk).isEmpty then st
      else if isStructureBlock (pyStrip blk) then st
      else if (cleanParagraphText (pyStrip blk)).isEmpty then
        { st with
          curSec := (applyMarkers ms (blockParaPos content st (pyStrip blk))
            (st.curSec, st.curSub)).1,
          curSub := (applyMarkers ms (blockParaPos content st (pyStrip blk))
            (st.curSec, st.curSub)).2,
          secPos := blockParaPos content st (pyStrip blk) + (pyStrip blk).length }
      else
        { acc := st.acc ++
            [({ index := st.acc.length,
                sectionName := String.mk (applyMarkers ms
                  (blockParaPos content st (pyStrip blk)) (st.curSec, st.curSub)).1,
                subsectionName := String.mk (applyMarkers ms
                  (blockParaPos content st (pyStrip blk)) (st.curSec, st.curSub)).2,
                paragraph := String.mk (cleanParagraphText (pyStrip blk)),
                is_in_environment := hasItemTok (pyStrip blk) },
              blockParaPos content st (pyStrip blk))],
          curSec := (applyMarkers ms (blockParaPos content st (pyStrip blk))
            (st.curSec, st.curSub)).1,
          curSub := (applyMarkers ms (blockParaPos content st (pyStrip blk))
            (st.curSec, st.curSub)).2,
          secPos := blockParaPos content st (pyStrip blk) + (pyStrip blk).length } :=
  rfl

/-- Search pointer never moves backwards past a located offset. -/
theorem blockParaPos_ge (content : List Char) (st : PState) (para : List Char) :
    st.secPos ≤ blockParaPos content st para := by
  unfold blockParaPos
  cases hf : strFindFrom content para st.secPos with
  | none => exact le_rfl
  | some i => exact strFindFrom_ge content para st.secPos i hf

/-- Invariant of the attribution fold: if the carried state agrees with the
offset-determined attribution at every offset at or past the search pointer,
then every record the fold produces carries the attribution determined by
its located offset. -/
theorem stepBlock_fold_inv (ms : List Marker) (content : List Char) :
    ∀ (blocks : List (List Char)) (st : PState),
      (∀ q, st.secPos ≤ q →
        applyMarkers ms q (st.curSec, st.curSub) = attributionAt ms q) →
      (∀ p pos, (p, pos) ∈ st.acc →
        p.sectionName = String.mk (attributionAt ms pos).1 ∧
        p.subsectionName = String.mk (attributionAt ms pos).2) →
      ∀ p pos, (p, pos) ∈ (blocks.foldl (stepBlock ms content) st).acc →
        p.sectionName = String.mk (attributionAt ms pos).1 ∧
        p.subsectionName = String.mk (attributionAt ms pos).2 := by
  intro blocks
  induction blocks with
  | nil => intro st _ h2 p pos hmem; exact h2 p pos hmem
  | cons blk rest ih =>
    intro st h1 h2 p pos hmem
    rw [List.foldl_cons] at hmem
    rw [stepBlock_def] at hmem
    by_cases hE : (pyStrip blk).isEmpty
    · rw [if_pos hE] at hmem
      exact ih st h1 h2 p pos hmem
    · rw [if_neg hE] at hmem
      by_cases hS : isStructureBlock (pyStrip blk)
      · rw [if_pos hS] at hmem
        exact ih st h1 h2 p pos hmem
      · rw [if_neg hS] at hmem
        have hple : st.secPos ≤ blockParaPos content st (pyStrip blk) :=
          blockParaPos_ge content st (pyStrip blk)
        have hattr : applyMarkers ms (blockParaPos content st (pyStrip blk))
            (st.curSec, st.curSub)
            = attributionAt ms (blockParaPos content st (pyStrip blk)) :=
          h1 _ hple
        have hinv : ∀ q, blockParaPos content st (pyStrip blk) + (pyStrip blk).length ≤ q →
            applyMarkers ms q
              (applyMarkers ms (blockParaPos content st (pyStrip blk))
                (st.curSec, st.curSub))
              = attributionAt ms q := by
          intro q hq
          rw [hattr]
          exact applyMarkers_trans ms _ q (by omega) _
        by_cases hC : (cleanParagraphText (pyStrip blk)).isEmpty
        · rw [if_pos hC] at hmem
          exact ih
            { st with
              curSec := (applyMarkers ms (blockParaPos content st (pyStrip blk))
                (st.curSec, st.curSub)).1,
              curSub := (applyMarkers ms (blockParaPos content st (pyStrip blk))
                (st.curSec, st.curSub)).2,
              secPos := blockParaPos content st (pyStrip blk) + (pyStrip blk).length }
            (fun q hq => hinv q hq) h2 p pos hmem
        · rw [if_neg hC] at hmem
          refine ih
            { acc := st.acc ++
                [({ index := st.acc.length,
                    sectionName := String.mk (applyMarkers ms
                      (blockParaPos content st (pyStrip blk)) (st.curSec, st.curSub)).1,
                    subsectionName := String.mk (applyMarkers ms
                      (blockParaPos content st (pyStrip blk)) (st.curSec, st.curSub)).2,
                    paragraph := String.mk (cleanParagraphText (pyStrip blk)),
                    is_in_environment := hasItemTok (pyStrip blk) },
                  blockParaPos content st (pyStrip blk))],
              curSec := (applyMarkers ms (blockParaPos content st (pyStrip blk))
                (st.curSec, st.curSub)).1,
              curSub := (applyMarkers ms (blockParaPos content st (pyStrip blk))
                (st.curSec, st.curSub)).2,
              secPos := blockParaPos content st (pyStrip blk) + (pyStrip blk).length }
            (fun q hq => hinv q hq) ?_ p pos hmem
          intro p' pos' hmem'
          rcases List.mem_append.mp hmem' with hold | hnew
          · exact h2 p' pos' hold
          · have heq := List.mem_singleton.mp hnew
            rw [Prod.mk.injEq] at heq
            obtain ⟨rfl, rfl⟩ := heq
            rw [hattr]
            exact ⟨rfl, rfl⟩

/-- Claim C7, amended: attribution is monotonic with respect to located
offsets, not document positions — every produced paragraph's section and
subsection are exactly those determined by folding the marker list up to the
paragraph's located offset from the initial empty state (the carried state
never leaks stale attribution), and located offsets never move backwards;
but the located offset is the first occurrence of the paragraph's text at or
after the end of the previously located candidate, and skipped structural
blocks do not advance that search pointer, so a paragraph whose text
duplicates text inside a skipped structural block can be located before a
Section marker that actually precedes it and then reports the earlier
section's title. -/
theorem c7_amended_attribution_determined_by_located_offset :
    ∀ (content0 : List Char) (p : Paragraph) (pos : Nat),
      (p, pos) ∈ parseBodyAux content0 →
      p.sectionName
        = String.mk (attributionAt
            (markersOf (normCRLF (stripEndDoc (stripPreamble content0)))) pos).1 ∧
      p.subsectionName
        = String.mk (attributionAt
            (markersOf (normCRLF (stripEndDoc (stripPreamble content0)))) pos).2 := by
  intro content0 p pos hmem
  have hmem' : (p, pos) ∈ ((splitBlocks (normCRLF (stripEndDoc (stripPreamble content0)))).foldl
      (stepBlock (markersOf (normCRLF (stripEndDoc (stripPreamble content0))))
        (normCRLF (stripEndDoc (stripPreamble content0))))
      ⟨[], [], [], 0⟩).acc := hmem
  exact stepBlock_fold_inv _ _ _ ⟨[], [], [], 0⟩
    (fun q _ => rfl) (fun p' pos' hm => absurd hm (List.not_mem_nil _)) p pos hmem'

/-- Witness instantiating the amended C7 statement on `dupDoc`: the second
produced paragraph is located at offset 15 (the duplicate inside the skipped
block) and its reported section is exactly the attribution at offset 15,
namely `A`. -/
theorem c7_amended_witness :
    ({ index := 1, sectionName := "A", subsectionName := "", paragraph := "X",
       is_in_environment := false } : Paragraph).sectionName
      = String.mk (attributionAt
          (markersOf (normCRLF (stripEndDoc (stripPreamble dupDoc)))) 15).1 ∧
    ({ index := 1, sectionName := "A", subsectionName := "", paragraph := "X",
       is_in_environment := false } : Paragraph).subsectionName
      = String.mk (attributionAt
          (markersOf (normCRLF (stripEndDoc (stripPreamble dupDoc)))) 15).2 :=
  c7_amended_attribution_determined_by_located_offset dupDoc
    { index := 1, sectionName := "A", subsectionName := "", paragraph := "X",
      is_in_environment := false } 15 (by decide)

end GenProposal
